import Mathlib

/-!
Verification of the `http-common` repository core: a shallow embedding of
`src/http_range.rs` (the `HttpRange` parser, merger, serializer and
satisfiability checker) and of the `HttpDate` collaborator stub from
`src/http_date.rs`, together with theorems settling the specification
claims about them.

Modelling conventions:
* Rust `u64` values are `Nat`; the `u64` domain bound `2 ^ 64` appears
  explicitly where the source can overflow or underflow.  Arithmetic uses
  the overflow-checked semantics of the source's integer operations
  (an out-of-range subtraction or addition is a panic, as in a build with
  overflow checks enabled); `u64::from_str` rejects values `≥ 2 ^ 64`.
* `Option<T>`-returning fallible Rust code together with possible panics
  (`unwrap`, checked arithmetic) is embedded as `RustResult T`:
  `.panicked` for a panic, `.returned none` for returning `None`,
  `.returned (some v)` for returning `Some(v)`.
* Rust's `str::split` with the one-character separators `"="`, `"/"`,
  `","`, `"-"` is embedded as `splitChar`; `str::trim` as `trimChars`
  (whitespace test restricted to ASCII whitespace); `Vec::join(",")` as
  `joinComma`; the stable `sort_by` on range starts as the stable
  `List.insertionSort` by the same key (Rust's `sort_by` is stable, and a
  stable sort is determined extensionally by its comparison relation).
-/

/-- Bound of the Rust `u64` domain. -/
def u64Bound : Nat := 2 ^ 64

/-- Checked `u64` subtraction: `a - b`, `none` on underflow (the source's
`-` with overflow checks panics there). -/
def checkedSub (a b : Nat) : Option Nat :=
  if b ≤ a then some (a - b) else none

/-- Checked `u64` increment: `a + 1`, `none` on overflow past `2 ^ 64 - 1`. -/
def checkedAdd1 (a : Nat) : Option Nat :=
  if a + 1 < u64Bound then some (a + 1) else none

/-- Outcome of running a fallible Rust function returning `Option<α>`:
it can panic, return `None`, or return `Some v`. -/
inductive RustResult (α : Type) where
  | panicked : RustResult α
  | returned : Option α → RustResult α
deriving DecidableEq, Repr

/-- Embedding of Rust `str::split(pat)` for a one-character pattern `c`:
splits into the (possibly empty) pieces between occurrences of `c`.
Always returns at least one piece. -/
def splitChar (c : Char) : List Char → List (List Char)
  | [] => [[]]
  | x :: xs =>
    if x = c then [] :: splitChar c xs
    else
      match splitChar c xs with
      | [] => [[x]]
      | y :: ys => (x :: y) :: ys

/-- Embedding of Rust `str::trim`: drop whitespace from both ends. -/
def trimChars (s : List Char) : List Char :=
  ((s.dropWhile Char.isWhitespace).reverse.dropWhile Char.isWhitespace).reverse

/-- Numeric value of a decimal digit character. -/
def digitVal (c : Char) : Nat := c.toNat - 48

/-- Accumulating decimal reader: fails on the first non-digit character. -/
def digitsValAux (acc : Nat) : List Char → Option Nat
  | [] => some acc
  | c :: cs => if c.isDigit then digitsValAux (acc * 10 + digitVal c) cs else none

/-- Embedding of Rust `u64::from_str` (as used via `str::parse::<u64>()`):
an optional leading `+`, then a nonempty string of decimal digits whose
value fits in `u64`; anything else fails. -/
def parseU64 (s : List Char) : Option Nat :=
  if s = [] then none
  else
    let body := if s.head? = some '+' then s.tail else s
    if body = [] then none
    else (digitsValAux 0 body).bind fun n => if n < u64Bound then some n else none

/-- Decimal digit character for a value below 10. -/
def digitChar (n : Nat) : Char := Char.ofNat (48 + n)

/-- Fuel-driven decimal rendering helper (structural recursion on the
fuel, so that it evaluates by kernel reduction; any fuel above `n`
produces the digits of `n`). -/
def natDigitsAux (fuel : Nat) (n : Nat) : List Char :=
  match fuel with
  | 0 => []
  | fuel + 1 =>
    if n < 10 then [digitChar n]
    else natDigitsAux fuel (n / 10) ++ [digitChar (n % 10)]

/-- Embedding of Rust `format!("{}", n)` for a `u64`: decimal digits,
most significant first, no sign, no leading zeros (except for 0 itself). -/
def natDigits (n : Nat) : List Char := natDigitsAux (n + 1) n

/-- Embedding of Rust `Vec::<String>::join(",")`. -/
def joinComma : List (List Char) → List Char
  | [] => []
  | [x] => x
  | x :: y :: xs => x ++ ',' :: joinComma (y :: xs)

/-- The range unit token, `RANGE_UNIT` in the source. -/
def RANGE_UNIT : String := "bytes"

/-- Embedding of Rust `std::ops::Range<u64>` as the source uses it: a pair
of byte offsets named `start` and `end` (here `end_`, since `end` is a
Lean keyword); the source treats the pair as the inclusive interval
`[start, end]`. -/
structure RangeU64 where
  start : Nat
  end_ : Nat
deriving DecidableEq, Repr

/-- Complete length part of the range header (`CompleteLength` in the
source). -/
inductive CompleteLength where
  | Representation : Nat → CompleteLength
  | Unknown : CompleteLength
deriving DecidableEq, Repr

/-- Parsed values of the `CONTENT_RANGE` header (`HttpRange` in the
source). -/
structure HttpRange where
  ranges : List RangeU64
  complete_length : Option CompleteLength
deriving DecidableEq, Repr

/-- Embedding of the per-range-spec body of the parsing loop in
`HttpRange::from_header` (src/http_range.rs lines 77-100): split the spec
on `-`, trim both tokens, require exactly two tokens, build the default
range `0..content_length - 1`, then overwrite its bounds according to
which tokens are nonempty, calling `parse::<u64>().unwrap()` on each
numeric token (a failed parse, like a checked-arithmetic overflow, is a
panic). -/
def parseRangeSpec (range_param : List Char) (content_length : Nat) :
    RustResult RangeU64 :=
  match (splitChar '-' range_param).map trimChars with
  | [v0, v1] =>
    match checkedSub content_length 1 with
    | none => .panicked
    | some d =>
      if v0 ≠ [] ∧ v1 ≠ [] then
        match parseU64 v0, parseU64 v1 with
        | some a, some b => .returned (some ⟨a, b⟩)
        | _, _ => .panicked
      else if v0 = [] ∧ v1 ≠ [] then
        match parseU64 v1 with
        | none => .panicked
        | some count =>
          match checkedSub content_length count with
          | none => .panicked
          | some st => .returned (some ⟨st, d⟩)
      else if v0 ≠ [] ∧ v1 = [] then
        match parseU64 v0 with
        | none => .panicked
        | some a => .returned (some ⟨a, d⟩)
      else .returned (some ⟨0, d⟩)
  | _ => .returned none

/-- Embedding of the whole parsing loop of `HttpRange::from_header`:
process the comma-separated range specs in order, stopping at the first
failure or panic. -/
def parseRangeSpecs (ps : List (List Char)) (content_length : Nat) :
    RustResult (List RangeU64) :=
  match ps with
  | [] => .returned (some [])
  | p :: rest =>
    match parseRangeSpec p content_length with
    | .panicked => .panicked
    | .returned none => .returned none
    | .returned (some r) =>
      match parseRangeSpecs rest content_length with
      | .panicked => .panicked
      | .returned none => .returned none
      | .returned (some rs) => .returned (some (r :: rs))

/-- Comparison key of the sort in `HttpRange::from_header` line 104:
`a.start.cmp(&b.start)` as a `≤`-style relation. -/
def leStart (a b : RangeU64) : Prop := a.start ≤ b.start

instance : DecidableRel leStart := fun _ _ => Nat.decLe _ _

instance : IsTotal RangeU64 leStart := ⟨fun a b => Nat.le_total a.start b.start⟩

instance : IsTrans RangeU64 leStart := ⟨fun _ _ _ hab hbc => Nat.le_trans hab hbc⟩

/-- The sort of `HttpRange::from_header` line 104:
`ranges.sort_by(|a, b| a.start.cmp(&b.start))`.  Rust's `sort_by` is a
stable sort; a stable sort is determined extensionally by its comparison
relation, so the stable `List.insertionSort` by the same key computes
the same list. -/
def sortRanges (l : List RangeU64) : List RangeU64 :=
  l.insertionSort leStart

/-- Embedding of the merge loop of `HttpRange::from_header` (lines
106-125) as structural recursion: `acc` is the running `range_last`
accumulator; a following range whose `start` is at most `acc.end + 1`
is merged by giving it `acc`'s start (the source keeps ITS OWN end — it
does not take the maximum of the two ends) and dropping `acc`; otherwise
`acc` is emitted.  The source computes `range_last.end + 1` in `u64`, so
that increment is overflow-checked. -/
def mergeLoop (acc : RangeU64) : List RangeU64 → RustResult (List RangeU64)
  | [] => .returned (some [acc])
  | r :: rest =>
    match checkedAdd1 acc.end_ with
    | none => .panicked
    | some e1 =>
      if r.start ≤ e1 then mergeLoop ⟨acc.start, r.end_⟩ rest
      else
        match mergeLoop r rest with
        | .panicked => .panicked
        | .returned none => .returned none
        | .returned (some out) => .returned (some (acc :: out))

/-- Embedding of the sort-and-merge phase of `HttpRange::from_header`
(lines 102-125).  When fewer than two ranges are present the source skips
the merge loop; `mergeLoop acc []` is `[acc]` with no arithmetic, which
matches. -/
def mergeRanges (ranges : List RangeU64) : RustResult (List RangeU64) :=
  match sortRanges ranges with
  | [] => .returned (some [])
  | a :: rest => mergeLoop a rest

/-- Embedding of the complete-length match of `HttpRange::from_header`
(lines 127-133): empty means absent, `*` means unknown, anything else is
`parse::<u64>().unwrap()` (panic on failure). -/
def parseCompleteLength (length_param : List Char) :
    RustResult (Option CompleteLength) :=
  if length_param = [] then .returned (some none)
  else if length_param = ['*'] then .returned (some (some .Unknown))
  else
    match parseU64 length_param with
    | none => .panicked
    | some n => .returned (some (some (.Representation n)))

/-- Embedding of the structural phase of `HttpRange::from_header` (lines
44-74): empty-input check, split on `=` with trimming, unit check, split
on `/` with trimming, extraction of the comma-separated range specs and
the length segment.  Returns `none` exactly where the source takes an
early `return None`. -/
def splitHeader (content_range : String) :
    Option (List (List Char) × List Char) :=
  if content_range.data = [] then none
  else
    match (splitChar '=' content_range.data).map trimChars with
    | [] => none
    | p0 :: rest =>
      if p0 = RANGE_UNIT.data then
        match rest with
        | [p1] =>
          match (splitChar '/' p1).map trimChars with
          | [] => none
          | [q0] => some (splitChar ',' q0, [])
          | [q0, q1] => some (splitChar ',' q0, q1)
          | _ => none
        | _ => none
      else none

/-- Embedding of `HttpRange::from_header` (src/http_range.rs lines
43-141): structural split, per-spec parsing loop, sort-and-merge, then
the complete-length segment. -/
def from_header (content_range : String) (content_length : Nat) :
    RustResult HttpRange :=
  match splitHeader content_range with
  | none => .returned none
  | some (range_params, length_param) =>
    match parseRangeSpecs range_params content_length with
    | .panicked => .panicked
    | .returned none => .returned none
    | .returned (some ranges) =>
      match mergeRanges ranges with
      | .panicked => .panicked
      | .returned none => .returned none
      | .returned (some merged) =>
        match parseCompleteLength length_param with
        | .panicked => .panicked
        | .returned none => .returned none
        | .returned (some copt) => .returned (some ⟨merged, copt⟩)

/-- Embedding of `HttpRange::to_header` (lines 148-167): empty range list
gives the empty string; otherwise `bytes=` then the `start-end` renderings
joined by commas, then the optional `/length` or `/*` suffix. -/
def to_header (r : HttpRange) : String :=
  match r.ranges with
  | [] => ""
  | _ =>
    let body :=
      joinComma (r.ranges.map fun x => natDigits x.start ++ '-' :: natDigits x.end_)
    match r.complete_length with
    | some (.Representation n) => ⟨RANGE_UNIT.data ++ '=' :: body ++ '/' :: natDigits n⟩
    | some .Unknown => ⟨RANGE_UNIT.data ++ '=' :: body ++ ['/', '*']⟩
    | none => ⟨RANGE_UNIT.data ++ '=' :: body⟩

/-- Embedding of `HttpRange::range_satisfiable` (lines 206-208). -/
def range_satisfiable (range : RangeU64) (content_length : Nat) : Bool :=
  range.start < content_length

/-- Embedding of `HttpRange::any_satisfiable` (lines 187-196): the loop
with early `return true` is exactly a short-circuiting `List.any`. -/
def any_satisfiable (r : HttpRange) (content_length : Nat) : Bool :=
  r.ranges.any fun range => range_satisfiable range content_length

/-- Embedding of `HttpRange::none_satisfiable` (lines 176-178). -/
def none_satisfiable (r : HttpRange) (content_length : Nat) : Bool :=
  !any_satisfiable r content_length

/-- Embedding of the `HttpDate` structure of `src/http_date.rs`. -/
structure HttpDate where
  day_name : String
  date : String
  day : Nat
  month : String
  year : Nat
  time_of_day : String
  hour : Nat
  minute : Nat
  second : Nat
deriving DecidableEq, Repr

/-- Embedding of `HttpDate::from_str` (src/http_date.rs lines 46-48): the
body is literally `None` for every input. -/
def HttpDate.from_str (_v : String) : Option HttpDate := none

/-! ### Library lemmas: splitting, trimming, decimal digits -/

theorem splitChar_ne_nil (c : Char) (s : List Char) : splitChar c s ≠ [] := by
  induction s with
  | nil => simp [splitChar]
  | cons x xs ih =>
    simp only [splitChar]
    split
    · simp
    · cases h : splitChar c xs with
      | nil => simp
      | cons y ys => simp

theorem splitChar_of_not_mem {c : Char} {s : List Char} (h : c ∉ s) :
    splitChar c s = [s] := by
  induction s with
  | nil => rfl
  | cons x xs ih =>
    simp only [List.mem_cons, not_or] at h
    have hx : ¬(x = c) := fun hxc => h.1 hxc.symm
    simp only [splitChar, if_neg hx, ih h.2]

theorem splitChar_append {c : Char} {xs : List Char} (ys : List Char) (h : c ∉ xs) :
    splitChar c (xs ++ c :: ys) = xs :: splitChar c ys := by
  induction xs with
  | nil => simp [splitChar]
  | cons x xt ih =>
    simp only [List.mem_cons, not_or] at h
    have hx : ¬(x = c) := fun hxc => h.1 hxc.symm
    show splitChar c (x :: (xt ++ c :: ys)) = (x :: xt) :: splitChar c ys
    rw [splitChar, if_neg hx, ih h.2]

theorem dropWhile_eq_self_of {p : Char → Bool} {s : List Char}
    (h : ∀ x ∈ s, p x = false) : s.dropWhile p = s := by
  cases s with
  | nil => rfl
  | cons x xs => simp [List.dropWhile, h x (by simp)]

theorem trimChars_eq_self {s : List Char}
    (h : ∀ x ∈ s, x.isWhitespace = false) : trimChars s = s := by
  unfold trimChars
  rw [dropWhile_eq_self_of h, dropWhile_eq_self_of (fun x hx => h x (by
    simpa using hx)), List.reverse_reverse]

theorem natDigitsAux_fuel {fuel fuel2 n : Nat} (h : n < fuel) (h2 : n < fuel2) :
    natDigitsAux fuel n = natDigitsAux fuel2 n := by
  induction fuel generalizing n fuel2 with
  | zero => omega
  | succ f ih =>
    cases fuel2 with
    | zero => omega
    | succ g =>
      simp only [natDigitsAux]
      split
      · rfl
      · rename_i h10
        have hdiv : n / 10 < n := Nat.div_lt_self (by omega) (by omega)
        rw [ih (by omega) (show n / 10 < g by omega)]

theorem natDigits_eq (n : Nat) :
    natDigits n =
      if n < 10 then [digitChar n]
      else natDigits (n / 10) ++ [digitChar (n % 10)] := by
  unfold natDigits
  conv_lhs => rw [natDigitsAux]
  split
  · rfl
  · rename_i h10
    have hdiv : n / 10 < n := Nat.div_lt_self (by omega) (by omega)
    rw [natDigitsAux_fuel (show n / 10 < n by omega) (Nat.lt_succ_self _)]

theorem digitChar_isDigit {k : Nat} (h : k < 10) : (digitChar k).isDigit = true := by
  interval_cases k <;> decide

theorem digitVal_digitChar {k : Nat} (h : k < 10) : digitVal (digitChar k) = k := by
  interval_cases k <;> decide

theorem natDigits_ne_nil (n : Nat) : natDigits n ≠ [] := by
  rw [natDigits_eq]
  split
  · simp
  · simp

theorem natDigits_all_digit (n : Nat) : ∀ c ∈ natDigits n, c.isDigit = true := by
  induction n using Nat.strong_induction_on with
  | _ n ih =>
    rw [natDigits_eq]
    split
    · rename_i h10
      intro c hc
      simp only [List.mem_singleton] at hc
      subst hc
      exact digitChar_isDigit h10
    · rename_i h10
      intro c hc
      rw [List.mem_append] at hc
      rcases hc with hc | hc
      · exact ih (n / 10) (Nat.div_lt_self (by omega) (by omega)) c hc
      · simp only [List.mem_singleton] at hc
        subst hc
        exact digitChar_isDigit (Nat.mod_lt _ (by omega))

theorem not_mem_of_all_digit {l : List Char} {d : Char}
    (hl : ∀ c ∈ l, c.isDigit = true) (hd : d.isDigit = false) : d ∉ l := by
  intro hm
  rw [hl d hm] at hd
  cases hd

theorem digit_not_white {c : Char} (h : c.isDigit = true) :
    c.isWhitespace = false := by
  by_contra hw
  rw [Bool.not_eq_false] at hw
  simp only [Char.isWhitespace, Bool.or_eq_true, decide_eq_true_eq] at hw
  rcases hw with ((h1 | h1) | h1) | h1 <;> subst h1 <;> exact absurd h (by decide)

theorem digitsValAux_append {acc m : Nat} {xs : List Char} (ys : List Char)
    (h : digitsValAux acc xs = some m) :
    digitsValAux acc (xs ++ ys) = digitsValAux m ys := by
  induction xs generalizing acc with
  | nil =>
    simp only [digitsValAux, Option.some_inj] at h
    subst h
    rfl
  | cons c cs ih =>
    simp only [digitsValAux] at h ⊢
    by_cases hc : c.isDigit = true
    · simp only [hc, if_true] at h ⊢
      exact ih h
    · simp only [Bool.not_eq_true] at hc
      simp [hc] at h

theorem digitsValAux_natDigits (n : Nat) :
    ∀ acc, digitsValAux acc (natDigits n) =
      some (acc * 10 ^ (natDigits n).length + n) := by
  induction n using Nat.strong_induction_on with
  | _ n ih =>
    intro acc
    rw [natDigits_eq]
    split
    · rename_i h10
      simp only [digitsValAux, digitChar_isDigit h10, if_true,
        digitVal_digitChar h10, List.length_singleton]
      rw [pow_one]
    · rename_i h10
      have hdiv : n / 10 < n := Nat.div_lt_self (by omega) (by omega)
      have hmod : n % 10 < 10 := Nat.mod_lt _ (by omega)
      rw [digitsValAux_append _ (ih (n / 10) hdiv acc)]
      simp only [digitsValAux, digitChar_isDigit hmod, if_true,
        digitVal_digitChar hmod, List.length_append, List.length_singleton]
      congr 1
      have hdm : 10 * (n / 10) + n % 10 = n := Nat.div_add_mod n 10
      rw [pow_succ]
      ring_nf
      omega

theorem parseU64_natDigits {n : Nat} (h : n < u64Bound) :
    parseU64 (natDigits n) = some n := by
  have hne := natDigits_ne_nil n
  have hdig := natDigits_all_digit n
  have hhead : ¬((natDigits n).head? = some '+') := by
    cases hd : natDigits n with
    | nil => exact absurd hd hne
    | cons c cs =>
      simp only [List.head?_cons, Option.some_inj]
      intro hc
      subst hc
      have := hdig '+' (by rw [hd]; simp)
      exact absurd this (by decide)
  simp only [parseU64, if_neg hne, hhead, if_false, if_neg hne]
  rw [digitsValAux_natDigits n 0]
  simp [h]

theorem digits_bind_lt {l : List Char} {n : Nat}
    (h : (if l = [] then none
          else (digitsValAux 0 l).bind fun m =>
            if m < u64Bound then some m else none) = some n) :
    n < u64Bound := by
  by_cases h0 : l = []
  · rw [if_pos h0] at h
    cases h
  · rw [if_neg h0, Option.bind_eq_some] at h
    obtain ⟨m, _, hm⟩ := h
    by_cases h1 : m < u64Bound
    · rw [if_pos h1] at hm
      cases hm
      exact h1
    · rw [if_neg h1] at hm
      cases hm

theorem parseU64_lt {s : List Char} {n : Nat} (h : parseU64 s = some n) :
    n < u64Bound := by
  simp only [parseU64] at h
  by_cases h0 : s = []
  · rw [if_pos h0] at h
    cases h
  · rw [if_neg h0] at h
    exact digits_bind_lt h

theorem mem_joinComma {parts : List (List Char)} {c : Char}
    (h : c ∈ joinComma parts) : c = ',' ∨ ∃ p ∈ parts, c ∈ p := by
  induction parts with
  | nil => simp [joinComma] at h
  | cons x xs ih =>
    cases xs with
    | nil =>
      simp only [joinComma] at h
      exact Or.inr ⟨x, by simp, h⟩
    | cons y ys =>
      simp only [joinComma, List.mem_append, List.mem_cons] at h
      rcases h with h | h | h
      · exact Or.inr ⟨x, by simp, h⟩
      · exact Or.inl h
      · rcases ih h with h1 | ⟨p, hp, hcp⟩
        · exact Or.inl h1
        · exact Or.inr ⟨p, by simp [hp], hcp⟩

theorem splitChar_joinComma {parts : List (List Char)} (hne : parts ≠ [])
    (h : ∀ p ∈ parts, ',' ∉ p) :
    splitChar ',' (joinComma parts) = parts := by
  induction parts with
  | nil => exact absurd rfl hne
  | cons x xs ih =>
    cases xs with
    | nil =>
      simp only [joinComma]
      exact splitChar_of_not_mem (h x (by simp))
    | cons y ys =>
      simp only [joinComma]
      rw [splitChar_append _ (h x (by simp)),
        ih (by simp) (fun p hp => h p (by simp [hp]))]

/-! ### Merge-phase lemmas -/

/-- Two ranges separated by a gap: the first ends strictly before the byte
just preceding the second, so they neither overlap nor are byte-adjacent. -/
def gapped (a b : RangeU64) : Prop := a.end_ + 1 < b.start

theorem checkedAdd1_some {a e1 : Nat} (h : checkedAdd1 a = some e1) :
    e1 = a + 1 ∧ a + 1 < u64Bound := by
  simp only [checkedAdd1] at h
  by_cases hb : a + 1 < u64Bound
  · rw [if_pos hb] at h
    cases h
    exact ⟨rfl, hb⟩
  · rw [if_neg hb] at h
    cases h

theorem pairwise_merge_step {acc r : RangeU64} {rest : List RangeU64}
    (hs : (acc :: r :: rest).Pairwise leStart) :
    (RangeU64.mk acc.start r.end_ :: rest).Pairwise leStart := by
  rw [List.pairwise_cons] at hs ⊢
  refine ⟨fun x hx => ?_, (List.pairwise_cons.mp hs.2).2⟩
  exact hs.1 x (by simp [hx])

theorem mergeLoop_ok :
    ∀ {rest : List RangeU64} {acc : RangeU64} {out : List RangeU64},
      (acc :: rest).Pairwise leStart →
      mergeLoop acc rest = .returned (some out) →
      (∀ x ∈ out, acc.start ≤ x.start) ∧
      out.Pairwise leStart ∧
      out.Chain' gapped ∧
      ∃ y ys, out = y :: ys ∧ y.start = acc.start := by
  intro rest
  induction rest with
  | nil =>
    intro acc out _ h
    simp only [mergeLoop, RustResult.returned.injEq, Option.some.injEq] at h
    subst h
    refine ⟨fun x hx => ?_, by simp, by simp, acc, [], rfl, rfl⟩
    simp only [List.mem_singleton] at hx
    subst hx
    exact Nat.le_refl _
  | cons r rest ih =>
    intro acc out hs h
    simp only [mergeLoop] at h
    cases hA : checkedAdd1 acc.end_ with
    | none => simp [hA] at h
    | some e1 =>
      simp only [hA] at h
      obtain ⟨he1, _⟩ := checkedAdd1_some hA
      by_cases hcond : r.start ≤ e1
      · rw [if_pos hcond] at h
        have hs2 := pairwise_merge_step hs
        obtain ⟨h1, h2, h3, y, ys, hy, hystart⟩ := ih hs2 h
        exact ⟨h1, h2, h3, y, ys, hy, hystart⟩
      · rw [if_neg hcond] at h
        cases hm : mergeLoop r rest with
        | panicked => simp [hm] at h
        | returned o =>
          cases o with
          | none => simp [hm] at h
          | some out2 =>
            simp only [hm, RustResult.returned.injEq, Option.some.injEq] at h
            subst h
            have hrr : (r :: rest).Pairwise leStart :=
              (List.pairwise_cons.mp hs).2
            have hacc_r : acc.start ≤ r.start :=
              (List.pairwise_cons.mp hs).1 r (by simp)
            obtain ⟨h1, h2, h3, y, ys, hy, hystart⟩ := ih hrr hm
            refine ⟨?_, ?_, ?_, acc, out2, rfl, rfl⟩
            · intro x hx
              rcases List.mem_cons.mp hx with hx | hx
              · subst hx; exact Nat.le_refl _
              · exact Nat.le_trans hacc_r (h1 x hx)
            · rw [List.pairwise_cons]
              exact ⟨fun x hx => Nat.le_trans hacc_r (h1 x hx), h2⟩
            · subst hy
              rw [List.chain'_cons]
              refine ⟨?_, h3⟩
              show acc.end_ + 1 < y.start
              rw [hystart]
              omega

theorem mergeLoop_pres {P : RangeU64 → Prop}
    (hP : ∀ a b : RangeU64, P a → P b → a.start ≤ b.start →
      P ⟨a.start, b.end_⟩) :
    ∀ {rest : List RangeU64} {acc : RangeU64} {out : List RangeU64},
      (acc :: rest).Pairwise leStart →
      (∀ x ∈ acc :: rest, P x) →
      mergeLoop acc rest = .returned (some out) →
      ∀ x ∈ out, P x := by
  intro rest
  induction rest with
  | nil =>
    intro acc out _ hall h
    simp only [mergeLoop, RustResult.returned.injEq, Option.some.injEq] at h
    subst h
    intro x hx
    simp only [List.mem_singleton] at hx
    subst hx
    exact hall _ (by simp)
  | cons r rest ih =>
    intro acc out hs hall h
    simp only [mergeLoop] at h
    cases hA : checkedAdd1 acc.end_ with
    | none => simp [hA] at h
    | some e1 =>
      simp only [hA] at h
      by_cases hcond : r.start ≤ e1
      · rw [if_pos hcond] at h
        have hs2 := pairwise_merge_step hs
        have hacc_r : acc.start ≤ r.start :=
          (List.pairwise_cons.mp hs).1 r (by simp)
        have hall2 : ∀ x ∈ RangeU64.mk acc.start r.end_ :: rest, P x := by
          intro x hx
          rcases List.mem_cons.mp hx with hx | hx
          · subst hx
            exact hP acc r (hall acc (by simp)) (hall r (by simp)) hacc_r
          · exact hall x (by simp [hx])
        exact ih hs2 hall2 h
      · rw [if_neg hcond] at h
        cases hm : mergeLoop r rest with
        | panicked => simp [hm] at h
        | returned o =>
          cases o with
          | none => simp [hm] at h
          | some out2 =>
            simp only [hm, RustResult.returned.injEq, Option.some.injEq] at h
            subst h
            intro x hx
            rcases List.mem_cons.mp hx with hx | hx
            · subst hx
              exact hall _ (by simp)
            · exact ih (List.pairwise_cons.mp hs).2
                (fun y hy => hall y (by simp [List.mem_cons.mp hy])) hm x hx

theorem mergeLoop_of_gaps :
    ∀ {rest : List RangeU64} {acc : RangeU64},
      (∀ x ∈ acc :: rest, x.start < u64Bound) →
      (acc :: rest).Chain' gapped →
      mergeLoop acc rest = .returned (some (acc :: rest)) := by
  intro rest
  induction rest with
  | nil => intro acc _ _; rfl
  | cons r rest ih =>
    intro acc hB hgap
    have hg : gapped acc r := (List.chain'_cons.mp hgap).1
    have hrB : r.start < u64Bound := hB r (by simp)
    have hadd : checkedAdd1 acc.end_ = some (acc.end_ + 1) := by
      simp only [checkedAdd1]
      rw [if_pos (by unfold gapped at hg; omega)]
    simp only [mergeLoop, hadd]
    rw [if_neg (by unfold gapped at hg; omega)]
    rw [ih (fun x hx => hB x (by simp [List.mem_cons.mp hx]))
      (List.chain'_cons.mp hgap).2]

theorem sortRanges_pairwise (l : List RangeU64) :
    (sortRanges l).Pairwise leStart :=
  List.sorted_insertionSort leStart l

theorem sortRanges_perm (l : List RangeU64) : List.Perm (sortRanges l) l :=
  List.perm_insertionSort leStart l

theorem sortRanges_eq_self {l : List RangeU64} (h : l.Pairwise leStart) :
    sortRanges l = l :=
  List.Sorted.insertionSort_eq h

theorem mergeRanges_ok_props {l out : List RangeU64}
    (h : mergeRanges l = .returned (some out)) :
    out.Pairwise leStart ∧ out.Chain' gapped ∧ (l ≠ [] → out ≠ []) := by
  unfold mergeRanges at h
  cases hs : sortRanges l with
  | nil =>
    simp only [hs, RustResult.returned.injEq, Option.some.injEq] at h
    subst h
    have hl : l = [] := by
      have hp := sortRanges_perm l
      rw [hs] at hp
      exact hp.symm.eq_nil
    exact ⟨by simp, by simp, fun hne => absurd hl hne⟩
  | cons a rest =>
    simp only [hs] at h
    have hp : (a :: rest).Pairwise leStart := hs ▸ sortRanges_pairwise l
    obtain ⟨_, h2, h3, y, ys, hy, _⟩ := mergeLoop_ok hp h
    exact ⟨h2, h3, fun _ => by simp [hy]⟩

theorem mergeRanges_pres {P : RangeU64 → Prop}
    (hP : ∀ a b : RangeU64, P a → P b → a.start ≤ b.start →
      P ⟨a.start, b.end_⟩)
    {l out : List RangeU64} (hall : ∀ x ∈ l, P x)
    (h : mergeRanges l = .returned (some out)) : ∀ x ∈ out, P x := by
  unfold mergeRanges at h
  cases hs : sortRanges l with
  | nil =>
    simp only [hs, RustResult.returned.injEq, Option.some.injEq] at h
    subst h
    simp
  | cons a rest =>
    simp only [hs] at h
    have hp : (a :: rest).Pairwise leStart := hs ▸ sortRanges_pairwise l
    have hall2 : ∀ x ∈ a :: rest, P x := fun x hx =>
      hall x ((sortRanges_perm l).mem_iff.mp (hs ▸ hx))
    exact mergeLoop_pres hP hp hall2 h

theorem mergeRanges_of_sorted_gaps {l : List RangeU64}
    (hsorted : l.Pairwise leStart) (hgap : l.Chain' gapped)
    (hB : ∀ x ∈ l, x.start < u64Bound) :
    mergeRanges l = .returned (some l) := by
  unfold mergeRanges
  rw [sortRanges_eq_self hsorted]
  cases l with
  | nil => rfl
  | cons a rest => exact mergeLoop_of_gaps hB hgap

/-! ### Parse-phase lemmas -/

theorem checkedSub_some {a b d : Nat} (h : checkedSub a b = some d) :
    b ≤ a ∧ d = a - b := by
  simp only [checkedSub] at h
  by_cases hb : b ≤ a
  · rw [if_pos hb] at h
    cases h
    exact ⟨hb, rfl⟩
  · rw [if_neg hb] at h
    cases h

theorem parseRangeSpec_ok_facts {p : List Char} {cl : Nat} {r : RangeU64}
    (h : parseRangeSpec p cl = .returned (some r)) :
    1 ≤ cl ∧ (cl < u64Bound → r.start < u64Bound ∧ r.end_ < u64Bound) := by
  unfold parseRangeSpec at h
  cases hm : (splitChar '-' p).map trimChars with
  | nil => simp [hm] at h
  | cons v0 t =>
    cases t with
    | nil => simp [hm] at h
    | cons v1 t2 =>
      cases t2 with
      | cons w t3 => simp [hm] at h
      | nil =>
        simp only [hm] at h
        cases hd : checkedSub cl 1 with
        | none => simp [hd] at h
        | some d =>
          simp only [hd] at h
          obtain ⟨hcl, hdd⟩ := checkedSub_some hd
          refine ⟨hcl, fun hB => ?_⟩
          split_ifs at h with h1 h2 h3
          · cases hu : parseU64 v0 with
            | none => simp [hu] at h
            | some a =>
              cases hv : parseU64 v1 with
              | none => simp [hu, hv] at h
              | some b =>
                simp only [hu, hv, RustResult.returned.injEq,
                  Option.some.injEq] at h
                subst h
                exact ⟨parseU64_lt hu, parseU64_lt hv⟩
          · cases hv : parseU64 v1 with
            | none => simp [hv] at h
            | some count =>
              simp only [hv] at h
              cases hsub : checkedSub cl count with
              | none => simp [hsub] at h
              | some st =>
                simp only [hsub, RustResult.returned.injEq,
                  Option.some.injEq] at h
                subst h
                obtain ⟨_, hst⟩ := checkedSub_some hsub
                constructor
                · show st < u64Bound
                  omega
                · show d < u64Bound
                  omega
          · cases hu : parseU64 v0 with
            | none => simp [hu] at h
            | some a =>
              simp only [hu, RustResult.returned.injEq,
                Option.some.injEq] at h
              subst h
              exact ⟨parseU64_lt hu, by show d < u64Bound; omega⟩
          · simp only [RustResult.returned.injEq, Option.some.injEq] at h
            subst h
            constructor
            · show 0 < u64Bound
              simp [u64Bound]
            · show d < u64Bound
              omega

theorem parseRangeSpecs_ok_facts {ps : List (List Char)} {cl : Nat}
    {rs : List RangeU64}
    (h : parseRangeSpecs ps cl = .returned (some rs)) :
    (ps ≠ [] → 1 ≤ cl ∧ rs ≠ []) ∧
    (cl < u64Bound → ∀ x ∈ rs, x.start < u64Bound ∧ x.end_ < u64Bound) := by
  induction ps generalizing rs with
  | nil =>
    simp only [parseRangeSpecs, RustResult.returned.injEq,
      Option.some.injEq] at h
    subst h
    exact ⟨fun hne => absurd rfl hne, fun _ x hx => absurd hx (by simp)⟩
  | cons p rest ih =>
    simp only [parseRangeSpecs] at h
    cases h1 : parseRangeSpec p cl with
    | panicked => simp [h1] at h
    | returned o1 =>
      cases o1 with
      | none => simp [h1] at h
      | some r =>
        simp only [h1] at h
        cases h2 : parseRangeSpecs rest cl with
        | panicked => simp [h2] at h
        | returned o2 =>
          cases o2 with
          | none => simp [h2] at h
          | some rs2 =>
            simp only [h2, RustResult.returned.injEq, Option.some.injEq] at h
            subst h
            obtain ⟨hcl, hbound⟩ := parseRangeSpec_ok_facts h1
            obtain ⟨_, hrest⟩ := ih h2
            refine ⟨fun _ => ⟨hcl, by simp⟩, fun hB x hx => ?_⟩
            rcases List.mem_cons.mp hx with hx | hx
            · subst hx
              exact hbound hB
            · exact hrest hB x hx

theorem parseCompleteLength_ok {lp : List Char} {copt : Option CompleteLength}
    (h : parseCompleteLength lp = .returned (some copt)) :
    copt = none ∨ copt = some .Unknown ∨
      ∃ n, n < u64Bound ∧ copt = some (.Representation n) := by
  unfold parseCompleteLength at h
  split_ifs at h with h1 h2
  · simp only [RustResult.returned.injEq, Option.some.injEq] at h
    exact Or.inl h.symm
  · simp only [RustResult.returned.injEq, Option.some.injEq] at h
    exact Or.inr (Or.inl h.symm)
  · cases hp : parseU64 lp with
    | none => simp [hp] at h
    | some n =>
      simp only [hp, RustResult.returned.injEq, Option.some.injEq] at h
      exact Or.inr (Or.inr ⟨n, parseU64_lt hp, h.symm⟩)

theorem splitHeader_rp {s : String} {rp : List (List Char)} {lp : List Char}
    (h : splitHeader s = some (rp, lp)) : ∃ q0, rp = splitChar ',' q0 := by
  unfold splitHeader at h
  by_cases h0 : s.data = []
  · rw [if_pos h0] at h
    cases h
  · rw [if_neg h0] at h
    cases hm : (splitChar '=' s.data).map trimChars with
    | nil => simp [hm] at h
    | cons p0 rest =>
      simp only [hm] at h
      by_cases hp0 : p0 = RANGE_UNIT.data
      · rw [if_pos hp0] at h
        cases rest with
        | nil => cases h
        | cons p1 rest2 =>
          cases rest2 with
          | cons w rest3 => cases h
          | nil =>
            cases hq : (splitChar '/' p1).map trimChars with
            | nil => simp [hq] at h
            | cons q0 qrest =>
              simp only [hq] at h
              cases qrest with
              | nil =>
                simp only [Option.some_inj, Prod.mk.injEq] at h
                exact ⟨q0, h.1.symm⟩
              | cons q1 q2 =>
                cases q2 with
                | nil =>
                  simp only [Option.some_inj, Prod.mk.injEq] at h
                  exact ⟨q0, h.1.symm⟩
                | cons w q3 => cases h
      · rw [if_neg hp0] at h
        cases h

theorem from_header_ok_inv {s : String} {cl : Nat} {r : HttpRange}
    (h : from_header s cl = .returned (some r)) :
    ∃ rp lp ranges,
      splitHeader s = some (rp, lp) ∧
      parseRangeSpecs rp cl = .returned (some ranges) ∧
      mergeRanges ranges = .returned (some r.ranges) ∧
      parseCompleteLength lp = .returned (some r.complete_length) := by
  unfold from_header at h
  cases hsp : splitHeader s with
  | none => simp [hsp] at h
  | some pr =>
    obtain ⟨rp, lp⟩ := pr
    simp only [hsp] at h
    cases h1 : parseRangeSpecs rp cl with
    | panicked => simp [h1] at h
    | returned o1 =>
      cases o1 with
      | none => simp [h1] at h
      | some ranges =>
        simp only [h1] at h
        cases h2 : mergeRanges ranges with
        | panicked => simp [h2] at h
        | returned o2 =>
          cases o2 with
          | none => simp [h2] at h
          | some merged =>
            simp only [h2] at h
            cases h3 : parseCompleteLength lp with
            | panicked => simp [h3] at h
            | returned o3 =>
              cases o3 with
              | none => simp [h3] at h
              | some copt =>
                simp only [h3, RustResult.returned.injEq,
                  Option.some.injEq] at h
                subst h
                exact ⟨rp, lp, ranges, rfl, h1, h2, h3⟩

/-! ### Serialization lemmas -/

theorem mem_rangePart {x : RangeU64} {c : Char}
    (h : c ∈ natDigits x.start ++ '-' :: natDigits x.end_) :
    c.isDigit = true ∨ c = '-' := by
  rw [List.mem_append, List.mem_cons] at h
  rcases h with h | h | h
  · exact Or.inl (natDigits_all_digit _ c h)
  · exact Or.inr h
  · exact Or.inl (natDigits_all_digit _ c h)

theorem mem_body {L : List RangeU64} {c : Char}
    (h : c ∈ joinComma
      (L.map fun x => natDigits x.start ++ '-' :: natDigits x.end_)) :
    c.isDigit = true ∨ c = '-' ∨ c = ',' := by
  rcases mem_joinComma h with h | ⟨p, hp, hcp⟩
  · exact Or.inr (Or.inr h)
  · rw [List.mem_map] at hp
    obtain ⟨x, _, hx⟩ := hp
    subst hx
    rcases mem_rangePart hcp with h | h
    · exact Or.inl h
    · exact Or.inr (Or.inl h)

theorem not_mem_body {L : List RangeU64} {d : Char} (hd1 : d.isDigit = false)
    (hd2 : d ≠ '-') (hd3 : d ≠ ',') :
    d ∉ joinComma (L.map fun x => natDigits x.start ++ '-' :: natDigits x.end_) := by
  intro hm
  rcases mem_body hm with h | h | h
  · rw [h] at hd1
    cases hd1
  · exact hd2 h
  · exact hd3 h

theorem body_not_white {L : List RangeU64} {c : Char}
    (h : c ∈ joinComma
      (L.map fun x => natDigits x.start ++ '-' :: natDigits x.end_)) :
    c.isWhitespace = false := by
  rcases mem_body h with h | h | h
  · exact digit_not_white h
  · subst h; decide
  · subst h; decide

theorem trim_body {L : List RangeU64} :
    trimChars (joinComma
      (L.map fun x => natDigits x.start ++ '-' :: natDigits x.end_)) =
    joinComma (L.map fun x => natDigits x.start ++ '-' :: natDigits x.end_) :=
  trimChars_eq_self fun _ hx => body_not_white hx

theorem parseRangeSpec_roundtrip {a b cl : Nat} (ha : a < u64Bound)
    (hb : b < u64Bound) (hcl : 1 ≤ cl) :
    parseRangeSpec (natDigits a ++ '-' :: natDigits b) cl =
      .returned (some ⟨a, b⟩) := by
  have hscrut : (splitChar '-' (natDigits a ++ '-' :: natDigits b)).map trimChars
      = [natDigits a, natDigits b] := by
    rw [splitChar_append _
        (not_mem_of_all_digit (natDigits_all_digit a) (by decide)),
      splitChar_of_not_mem
        (not_mem_of_all_digit (natDigits_all_digit b) (by decide))]
    simp only [List.map_cons, List.map_nil]
    rw [trimChars_eq_self fun x hx => digit_not_white (natDigits_all_digit a x hx),
      trimChars_eq_self fun x hx => digit_not_white (natDigits_all_digit b x hx)]
  have hd : checkedSub cl 1 = some (cl - 1) := by
    simp only [checkedSub]
    rw [if_pos hcl]
  unfold parseRangeSpec
  simp only [hscrut, hd]
  rw [if_pos ⟨natDigits_ne_nil a, natDigits_ne_nil b⟩]
  simp only [parseU64_natDigits ha, parseU64_natDigits hb]

theorem parseRangeSpecs_roundtrip {L : List RangeU64} {cl : Nat} (hcl : 1 ≤ cl)
    (hB : ∀ x ∈ L, x.start < u64Bound ∧ x.end_ < u64Bound) :
    parseRangeSpecs
      (L.map fun x => natDigits x.start ++ '-' :: natDigits x.end_) cl =
      .returned (some L) := by
  induction L with
  | nil => rfl
  | cons x xs ih =>
    simp only [List.map_cons, parseRangeSpecs]
    simp only [parseRangeSpec_roundtrip (hB x (by simp)).1 (hB x (by simp)).2 hcl]
    simp only [ih fun y hy => hB y (by simp [hy])]

theorem parseCompleteLength_natDigits {n : Nat} (h : n < u64Bound) :
    parseCompleteLength (natDigits n) =
      .returned (some (some (.Representation n))) := by
  have hstar : ¬(natDigits n = ['*']) := by
    intro hq
    have := natDigits_all_digit n '*' (by rw [hq]; simp)
    exact absurd this (by decide)
  unfold parseCompleteLength
  rw [if_neg (natDigits_ne_nil n), if_neg hstar]
  simp only [parseU64_natDigits h]

theorem splitHeader_bytes_tail1 {tail q0 : List Char} (hne : '=' ∉ tail)
    (hnw : ∀ c ∈ tail, c.isWhitespace = false)
    (hq : (splitChar '/' tail).map trimChars = [q0]) :
    splitHeader ⟨RANGE_UNIT.data ++ '=' :: tail⟩ =
      some (splitChar ',' q0, []) := by
  have hsplit : splitChar '=' (RANGE_UNIT.data ++ '=' :: tail) =
      [RANGE_UNIT.data, tail] := by
    rw [splitChar_append _ (by decide), splitChar_of_not_mem hne]
  have htrim : trimChars RANGE_UNIT.data = RANGE_UNIT.data := by decide
  unfold splitHeader
  rw [if_neg (by simp)]
  simp only [hsplit, List.map_cons, List.map_nil, htrim, trimChars_eq_self hnw]
  rw [if_pos trivial]
  simp only [hq]

theorem splitHeader_bytes_tail2 {tail q0 q1 : List Char} (hne : '=' ∉ tail)
    (hnw : ∀ c ∈ tail, c.isWhitespace = false)
    (hq : (splitChar '/' tail).map trimChars = [q0, q1]) :
    splitHeader ⟨RANGE_UNIT.data ++ '=' :: tail⟩ =
      some (splitChar ',' q0, q1) := by
  have hsplit : splitChar '=' (RANGE_UNIT.data ++ '=' :: tail) =
      [RANGE_UNIT.data, tail] := by
    rw [splitChar_append _ (by decide), splitChar_of_not_mem hne]
  have htrim : trimChars RANGE_UNIT.data = RANGE_UNIT.data := by decide
  unfold splitHeader
  rw [if_neg (by simp)]
  simp only [hsplit, List.map_cons, List.map_nil, htrim, trimChars_eq_self hnw]
  rw [if_pos trivial]
  simp only [hq]

theorem from_header_to_header {L : List RangeU64} {copt : Option CompleteLength}
    {cl : Nat} (hne : L ≠ [])
    (hB : ∀ x ∈ L, x.start < u64Bound ∧ x.end_ < u64Bound)
    (hsorted : L.Pairwise leStart) (hgap : L.Chain' gapped) (hcl : 1 ≤ cl)
    (hcopt : copt = none ∨ copt = some .Unknown ∨
      ∃ n, n < u64Bound ∧ copt = some (.Representation n)) :
    from_header (to_header ⟨L, copt⟩) cl = .returned (some ⟨L, copt⟩) := by
  cases L with
  | nil => exact absurd rfl hne
  | cons y ys =>
    have hbodyeq : '=' ∉ joinComma
        ((y :: ys).map fun x => natDigits x.start ++ '-' :: natDigits x.end_) :=
      not_mem_body (by decide) (by decide) (by decide)
    have hbodysl : '/' ∉ joinComma
        ((y :: ys).map fun x => natDigits x.start ++ '-' :: natDigits x.end_) :=
      not_mem_body (by decide) (by decide) (by decide)
    have hcomma : ∀ p ∈ ((y :: ys).map fun x =>
        natDigits x.start ++ '-' :: natDigits x.end_), ',' ∉ p := by
      intro p hp hc
      rw [List.mem_map] at hp
      obtain ⟨x, _, hx⟩ := hp
      subst hx
      rcases mem_rangePart hc with h | h
      · exact absurd h (by decide)
      · exact absurd h (by decide)
    have hsplitbody : splitChar ',' (joinComma ((y :: ys).map fun x =>
        natDigits x.start ++ '-' :: natDigits x.end_)) =
        (y :: ys).map fun x => natDigits x.start ++ '-' :: natDigits x.end_ :=
      splitChar_joinComma (by simp) hcomma
    have hps : parseRangeSpecs ((y :: ys).map fun x =>
        natDigits x.start ++ '-' :: natDigits x.end_) cl =
        .returned (some (y :: ys)) := parseRangeSpecs_roundtrip hcl hB
    have hmr : mergeRanges (y :: ys) = .returned (some (y :: ys)) :=
      mergeRanges_of_sorted_gaps hsorted hgap fun x hx => (hB x hx).1
    rcases hcopt with hc | hc | ⟨n, hn, hc⟩
    · subst hc
      have hq : (splitChar '/' (joinComma ((y :: ys).map fun x =>
          natDigits x.start ++ '-' :: natDigits x.end_))).map trimChars =
          [joinComma ((y :: ys).map fun x =>
            natDigits x.start ++ '-' :: natDigits x.end_)] := by
        rw [splitChar_of_not_mem hbodysl]
        show [trimChars (joinComma ((y :: ys).map fun x =>
          natDigits x.start ++ '-' :: natDigits x.end_))] = _
        rw [trim_body]
      have hsp := splitHeader_bytes_tail1 hbodyeq
        (fun c hc => body_not_white hc) hq
      show from_header ⟨RANGE_UNIT.data ++ '=' :: joinComma ((y :: ys).map fun x =>
        natDigits x.start ++ '-' :: natDigits x.end_)⟩ cl = _
      unfold from_header
      simp only [hsp, hsplitbody, hps, hmr]
      rfl
    · subst hc
      have htail : ∀ c ∈ joinComma ((y :: ys).map fun x =>
          natDigits x.start ++ '-' :: natDigits x.end_) ++ '/' :: ['*'],
          c.isDigit = true ∨ c = '-' ∨ c = ',' ∨ c = '/' ∨ c = '*' := by
        intro c hcm
        rw [List.mem_append, List.mem_cons, List.mem_singleton] at hcm
        rcases hcm with h | h | h
        · rcases mem_body h with h | h | h
          · exact Or.inl h
          · exact Or.inr (Or.inl h)
          · exact Or.inr (Or.inr (Or.inl h))
        · exact Or.inr (Or.inr (Or.inr (Or.inl h)))
        · exact Or.inr (Or.inr (Or.inr (Or.inr h)))
      have hne2 : '=' ∉ joinComma ((y :: ys).map fun x =>
          natDigits x.start ++ '-' :: natDigits x.end_) ++ '/' :: ['*'] := by
        intro hm
        rcases htail _ hm with h | h | h | h | h <;>
          exact absurd h (by decide)
      have hnw2 : ∀ c ∈ joinComma ((y :: ys).map fun x =>
          natDigits x.start ++ '-' :: natDigits x.end_) ++ '/' :: ['*'],
          c.isWhitespace = false := by
        intro c hcm
        rcases htail c hcm with h | h | h | h | h
        · exact digit_not_white h
        all_goals subst h; decide
      have hq : (splitChar '/' (joinComma ((y :: ys).map fun x =>
          natDigits x.start ++ '-' :: natDigits x.end_) ++ '/' :: ['*'])).map
          trimChars = [joinComma ((y :: ys).map fun x =>
            natDigits x.start ++ '-' :: natDigits x.end_), ['*']] := by
        rw [splitChar_append _ hbodysl, splitChar_of_not_mem (by decide)]
        show [trimChars (joinComma ((y :: ys).map fun x =>
          natDigits x.start ++ '-' :: natDigits x.end_)), trimChars ['*']] = _
        rw [trim_body, show trimChars ['*'] = ['*'] by decide]
      have hsp := splitHeader_bytes_tail2 hne2 hnw2 hq
      show from_header ⟨RANGE_UNIT.data ++ '=' :: (joinComma ((y :: ys).map fun x =>
        natDigits x.start ++ '-' :: natDigits x.end_) ++ '/' :: ['*'])⟩ cl = _
      unfold from_header
      simp only [hsp, hsplitbody, hps, hmr]
      rfl
    · subst hc
      have htail : ∀ c ∈ joinComma ((y :: ys).map fun x =>
          natDigits x.start ++ '-' :: natDigits x.end_) ++ '/' :: natDigits n,
          c.isDigit = true ∨ c = '-' ∨ c = ',' ∨ c = '/' ∨ c = '*' := by
        intro c hcm
        rw [List.mem_append, List.mem_cons] at hcm
        rcases hcm with h | h | h
        · rcases mem_body h with h | h | h
          · exact Or.inl h
          · exact Or.inr (Or.inl h)
          · exact Or.inr (Or.inr (Or.inl h))
        · exact Or.inr (Or.inr (Or.inr (Or.inl h)))
        · exact Or.inl (natDigits_all_digit n c h)
      have hne2 : '=' ∉ joinComma ((y :: ys).map fun x =>
          natDigits x.start ++ '-' :: natDigits x.end_) ++ '/' :: natDigits n := by
        intro hm
        rcases htail _ hm with h | h | h | h | h <;>
          exact absurd h (by decide)
      have hnw2 : ∀ c ∈ joinComma ((y :: ys).map fun x =>
          natDigits x.start ++ '-' :: natDigits x.end_) ++ '/' :: natDigits n,
          c.isWhitespace = false := by
        intro c hcm
        rcases htail c hcm with h | h | h | h | h
        · exact digit_not_white h
        all_goals subst h; decide
      have hq : (splitChar '/' (joinComma ((y :: ys).map fun x =>
          natDigits x.start ++ '-' :: natDigits x.end_) ++ '/' :: natDigits n)).map
          trimChars = [joinComma ((y :: ys).map fun x =>
            natDigits x.start ++ '-' :: natDigits x.end_), natDigits n] := by
        rw [splitChar_append _ hbodysl, splitChar_of_not_mem
          (not_mem_of_all_digit (natDigits_all_digit n) (by decide))]
        show [trimChars (joinComma ((y :: ys).map fun x =>
          natDigits x.start ++ '-' :: natDigits x.end_)),
          trimChars (natDigits n)] = _
        rw [trim_body, trimChars_eq_self fun x hx =>
          digit_not_white (natDigits_all_digit n x hx)]
      have hsp := splitHeader_bytes_tail2 hne2 hnw2 hq
      show from_header ⟨RANGE_UNIT.data ++ '=' :: (joinComma ((y :: ys).map fun x =>
        natDigits x.start ++ '-' :: natDigits x.end_) ++ '/' :: natDigits n)⟩ cl = _
      unfold from_header
      simp only [hsp, hsplitbody, hps, hmr, parseCompleteLength_natDigits hn]

/-! ### Zero-content-length lemmas -/

theorem parseRangeSpec_zero (p : List Char) :
    parseRangeSpec p 0 = .panicked ∨ parseRangeSpec p 0 = .returned none := by
  unfold parseRangeSpec
  cases hm : (splitChar '-' p).map trimChars with
  | nil => exact Or.inr rfl
  | cons v0 t =>
    cases t with
    | nil => exact Or.inr rfl
    | cons v1 t2 =>
      cases t2 with
      | nil => exact Or.inl rfl
      | cons w t3 => exact Or.inr rfl

theorem parseRangeSpecs_zero {ps : List (List Char)} (hne : ps ≠ []) :
    parseRangeSpecs ps 0 = .panicked ∨
    parseRangeSpecs ps 0 = .returned none := by
  cases ps with
  | nil => exact absurd rfl hne
  | cons p rest =>
    rcases parseRangeSpec_zero p with h | h
    · left
      simp only [parseRangeSpecs, h]
    · right
      simp only [parseRangeSpecs, h]

/-! ### Claim theorems -/

/-- C1: the claim states that overlapping or byte-adjacent ranges merge
into one range covering `[min(starts), max(ends)]`.  The code does not
take the maximum of the two ends: merging `500-700` with the contained
range `601-650` (both overlap, sorted by start) produces the single range
`[500, 650]`, silently dropping coverage of bytes `651..700`, instead of
the claimed `[500, 700]`.  This theorem evaluates the embedded code at
that failing input. -/
theorem C1_merge_failing_input_eval :
    from_header "bytes=500-700,601-650" 10000 =
      .returned (some ⟨[⟨500, 650⟩], none⟩) := by decide

/-- C2: the claim states `from_header` never panics and that a
non-numeric range bound or a non-numeric, non-`*` length segment yields a
returned failure.  In the code both call `parse::<u64>().unwrap()`, which
panics on a non-numeric token; this theorem evaluates the embedded code
at two such failing inputs. -/
theorem C2_nonnumeric_panics :
    from_header "bytes=a-b" 10000 = .panicked ∧
    from_header "bytes=0-1/x" 10000 = .panicked := by decide

/-- C3: the claim states that a suffix range `-N` with
`N > content_length` yields a typed `ArithmeticOverflow` error.  The code
has no such error type: it computes `content_length - count` directly on
`u64`, which underflows (a panic under overflow checks, a wrapped-around
range otherwise).  This theorem evaluates the embedded code at
`-500` against content length `100`. -/
theorem C3_suffix_underflow :
    from_header "bytes=-500" 100 = .panicked := by decide

/-- C4: round-trip — for every `RangeSet` that `from_header` successfully
returns for some input and some `u64` content length, parsing its
serialization with the same content length returns the same `RangeSet`
(same ranges in the same order, same complete length). -/
theorem C4_roundtrip (s : String) (cl : Nat) (r : HttpRange)
    (hcl : cl < u64Bound)
    (h : from_header s cl = .returned (some r)) :
    from_header (to_header r) cl = .returned (some r) := by
  obtain ⟨rp, lp, ranges, hsp, h1, h2, h3⟩ := from_header_ok_inv h
  obtain ⟨q0, hq0⟩ := splitHeader_rp hsp
  have hrpne : rp ≠ [] := by
    rw [hq0]
    exact splitChar_ne_nil ',' q0
  obtain ⟨hfacts, hbounds⟩ := parseRangeSpecs_ok_facts h1
  obtain ⟨hcl1, hranges_ne⟩ := hfacts hrpne
  obtain ⟨hpair, hchain, hne_imp⟩ := mergeRanges_ok_props h2
  have hB : ∀ x ∈ r.ranges, x.start < u64Bound ∧ x.end_ < u64Bound :=
    mergeRanges_pres (fun a b ha hb _ => ⟨ha.1, hb.2⟩) (hbounds hcl) h2
  exact from_header_to_header (hne_imp hranges_ne) hB hpair hchain hcl1
    (parseCompleteLength_ok h3)

/-- Witness for C4 at the concrete input `bytes=734-1233/1234` with
content length 1234. -/
theorem C4_roundtrip_witness :
    from_header (to_header ⟨[⟨734, 1233⟩], some (.Representation 1234)⟩) 1234 =
      .returned (some ⟨[⟨734, 1233⟩], some (.Representation 1234)⟩) :=
  C4_roundtrip "bytes=734-1233/1234" 1234
    ⟨[⟨734, 1233⟩], some (.Representation 1234)⟩ (by decide) (by decide)

/-- C5: the claim states that a bare `-` range-spec (both bounds
omitted), more than two dash-separated tokens, or a non-numeric token all
fail with a `Malformed` error and no `RangeSet` is returned.  In the code
a bare `-` is NOT rejected: neither bound-overwriting branch fires and
the default range `0..content_length - 1` is pushed, so a full-content
`RangeSet` is returned; a non-numeric token panics instead of returning a
failure; only the wrong-token-count case returns a failure (`None`, not a
typed error).  This theorem evaluates the embedded code on all three. -/
theorem C5_malformed_eval :
    from_header "bytes=-" 10 = .returned (some ⟨[⟨0, 9⟩], none⟩) ∧
    from_header "bytes=1-2-3" 10 = .returned none ∧
    from_header "bytes=x-9" 10 = .panicked := by decide

/-- C6 counterexample: the claim states every range in a successfully
returned `RangeSet` satisfies `start <= end`.  The code takes an explicit
`start-end` spec as given without validation, so `bytes=700-500` is
accepted and returns the range `[700, 500]` whose `start` exceeds its
`end` (`500 < 700`). -/
theorem C6_counterexample :
    from_header "bytes=700-500" 10000 =
      .returned (some ⟨[⟨700, 500⟩], none⟩) ∧ 500 < 700 := by decide

/-- C6 (amended): every range in a `RangeSet` successfully returned by
`from_header` satisfies `start <= end` PROVIDED every resolved range-spec
already satisfies `start <= end` before the merge phase (the parser does
not validate this; `bytes=700-500` violates it). -/
theorem C6_amended (s : String) (cl : Nat) (r : HttpRange)
    (rp : List (List Char)) (lp : List Char) (pre : List RangeU64)
    (hsplit : splitHeader s = some (rp, lp))
    (hpre : parseRangeSpecs rp cl = .returned (some pre))
    (hle : ∀ x ∈ pre, x.start ≤ x.end_)
    (h : from_header s cl = .returned (some r)) :
    ∀ x ∈ r.ranges, x.start ≤ x.end_ := by
  obtain ⟨rp2, lp2, ranges, hsp2, h1, h2, h3⟩ := from_header_ok_inv h
  rw [hsplit, Option.some_inj, Prod.mk.injEq] at hsp2
  obtain ⟨hrp, hlp⟩ := hsp2
  subst hrp
  rw [hpre, RustResult.returned.injEq, Option.some_inj] at h1
  subst h1
  exact @mergeRanges_pres (fun x => x.start ≤ x.end_)
    (fun a b ha hb hab => Nat.le_trans hab hb) pre r.ranges hle h2

/-- Witness for C6 (amended) at the concrete input `bytes=0-4` with
content length 10, applied to the member range `[0, 4]`. -/
theorem C6_amended_witness : (0 : Nat) ≤ 4 :=
  C6_amended "bytes=0-4" 10 ⟨[⟨0, 4⟩], none⟩ [['0', '-', '4']] [] [⟨0, 4⟩]
    (by decide) (by decide) (by decide) (by decide) ⟨0, 4⟩ (by decide)

/-- C7: normalization invariant — in every `RangeSet` successfully
returned by `from_header`, the ranges are sorted ascending by `start`,
and every pair of consecutive ranges `r_i, r_{i+1}` satisfies
`r_i.end + 1 < r_{i+1}.start` (no overlap, no byte-adjacency). -/
theorem C7_normalization (s : String) (cl : Nat) (r : HttpRange)
    (h : from_header s cl = .returned (some r)) :
    r.ranges.Pairwise (fun a b => a.start ≤ b.start) ∧
    r.ranges.Chain' (fun a b => a.end_ + 1 < b.start) := by
  obtain ⟨rp, lp, ranges, hsp, h1, h2, h3⟩ := from_header_ok_inv h
  obtain ⟨hp, hc, _⟩ := mergeRanges_ok_props h2
  exact ⟨hp, hc⟩

/-- Witness for C7 at the concrete input `bytes=0-1,5-6` with content
length 10. -/
theorem C7_normalization_witness :
    List.Pairwise (fun a b : RangeU64 => a.start ≤ b.start)
      [⟨0, 1⟩, ⟨5, 6⟩] ∧
    List.Chain' (fun a b : RangeU64 => a.end_ + 1 < b.start)
      [⟨0, 1⟩, ⟨5, 6⟩] :=
  C7_normalization "bytes=0-1,5-6" 10 ⟨[⟨0, 1⟩, ⟨5, 6⟩], none⟩ (by decide)

/-- C8: satisfiability semantics — a range is satisfiable iff its start
is strictly below the content length; a `HttpRange` is `any_satisfiable`
iff at least one of its ranges is satisfiable; and `none_satisfiable` is
the exact boolean negation of `any_satisfiable` on every input. -/
theorem C8_satisfiability :
    (∀ (range : RangeU64) (content_length : Nat),
      range_satisfiable range content_length = true ↔
        range.start < content_length) ∧
    (∀ (r : HttpRange) (content_length : Nat),
      any_satisfiable r content_length = true ↔
        ∃ range ∈ r.ranges, range_satisfiable range content_length = true) ∧
    (∀ (r : HttpRange) (content_length : Nat),
      none_satisfiable r content_length = !any_satisfiable r content_length) := by
  refine ⟨fun range cl => ?_, fun r cl => ?_, fun r cl => rfl⟩
  · simp [range_satisfiable]
  · simp [any_satisfiable, List.any_eq_true]

/-- C9: the claim states `HttpDate::from_str` parses a valid IMF-fixdate
string into a populated `HttpDate`.  The code's body is literally `None`:
it returns no value for every input, including the valid IMF-fixdate
`"Sun, 06 Nov 1994 08:49:37 GMT"` that the module's own tests expect to
parse.  This theorem evaluates the embedded stub. -/
theorem C9_from_str_stub (s : String) : HttpDate.from_str s = none := rfl

/-- C10: with `content_length = 0`, `from_header` has no successful
result for any header value: every outcome is either a structural failure
(before range resolution) or a panic, because resolving any range-spec
with exactly two dash-separated tokens computes `content_length - 1`
first, which underflows `u64`.  The second conjunct shows an explicit
start-end spec, whose resolved bounds do not otherwise depend on the
content length, reaching that underflow. -/
theorem C10_zero_length :
    (∀ s : String, from_header s 0 = .panicked ∨
      from_header s 0 = .returned none) ∧
    from_header "bytes=0-5" 0 = .panicked := by
  refine ⟨fun s => ?_, by decide⟩
  unfold from_header
  cases hsp : splitHeader s with
  | none => exact Or.inr rfl
  | some pr =>
    obtain ⟨rp, lp⟩ := pr
    obtain ⟨q0, hq0⟩ := splitHeader_rp hsp
    have hne : rp ≠ [] := by
      rw [hq0]
      exact splitChar_ne_nil ',' q0
    rcases parseRangeSpecs_zero hne with h | h
    · left
      simp only [h]
    · right
      simp only [h]
